import Mathlib

/-! # EurekaSyncer: the reconcile translator and the beat loop

A shallow embedding of `pkg/controller/handler.go`.

* `reconcile` sends on `liveChan` / `deadChan`; the embedding returns the list
  of values sent (`Signal`s), or `none` when the Go code panics.
* `beat` is an endless `select` loop over a ticker and the two channels.  One
  iteration of the loop is `beatStep`: it takes the `instances` map and the
  selected event and returns the new map together with the registry calls
  issued during the iteration, or `none` when the iteration panics.
* `map[string]*fargo.Instance` is an association list with pairwise distinct
  keys (`AList`).  Go leaves the iteration order of a map unspecified; the
  embedding iterates in the order of the association list, and statements
  about a tick are made up to permutation.
* Go strings are modelled by Lean strings; the separator `"/"` is one byte, so
  splitting on it commutes with UTF-8 decoding.
-/

namespace Eurek8s

/-! ## Collaborator types (fargo, core_v1) -/

/-- The `fargo.StatusType` enumeration. -/
inductive StatusType where
  | UP
  | DOWN
  | STARTING
  | OUTOFSERVICE
  | UNKNOWN
  deriving DecidableEq, Repr

/-- The data-center names of `fargo.DataCenterInfo`. -/
inductive DataCenterName where
  | Amazon
  | MyOwn
  deriving DecidableEq, Repr

/-- The fields of `fargo.Instance` that `reconcile` fills in.  `UniqueID` is a
function field in Go (`func(i Instance) string`); the code only ever evaluates
it as `i.UniqueID(*i)`, and the embedding stores that value. -/
structure Instance where
  UniqueID : String
  App : String
  HostName : String
  IPAddr : String
  VipAddress : String
  SecureVipAddress : String
  Status : StatusType
  Port : Nat
  DataCenterInfo : DataCenterName
  deriving DecidableEq, Repr

/-- The fields of `core_v1.Pod` read by `reconcile`.  `Labels` is a Go
`map[string]string`, read only, hence a partial function. -/
structure Pod where
  Name : String
  Labels : String → Option String
  Phase : String
  PodIP : String

/-- Indexing a Go `map[string]string`: the zero value `""` for a missing key. -/
def mapIndex (m : String → Option String) (k : String) : String :=
  (m k).getD ""

/-- The dynamic value of the `obj interface{}` argument: the nil interface, a
pointer to a pod, or anything else (on which the type assertion or the
dereference panics). -/
inductive Obj where
  | nil
  | pod (p : Pod)
  | other

/-! ## Signals, events, registry calls -/

/-- A value sent by `reconcile`: an instance on `liveChan` or a raw key on
`deadChan`. -/
inductive Signal where
  | live (i : Instance)
  | dead (keyRaw : String)
  deriving DecidableEq, Repr

/-- What one iteration of the `select` in `beat` receives. -/
inductive Event where
  | tick
  | signal (s : Signal)
  deriving DecidableEq, Repr

/-- A call on the Eureka connection. -/
inductive Call where
  | RegisterInstance (i : Instance)
  | DeregisterInstance (i : Instance)
  deriving DecidableEq, Repr

/-- The `instances` map of `beat`. -/
abbrev Table := AList (fun _ : String => Instance)

/-! ## strings.Split on a one-character separator -/

/-- Splitting a character list at every occurrence of `sep`. -/
def splitChars (sep : Char) : List Char → List (List Char)
  | [] => [[]]
  | c :: cs =>
    if c = sep then [] :: splitChars sep cs
    else
      match splitChars sep cs with
      | [] => [[c]]
      | seg :: rest => (c :: seg) :: rest

/-- The call `strings.Split(s, sep)` for a one-character separator: the
substrings of `s` between the occurrences of `sep`, in order. -/
def Split (s : String) (sep : Char) : List String :=
  (splitChars sep s.data).map String.mk

/-! ## reconcile -/

/-- The method `reconcile(keyRaw, obj)`: the signals sent, `none` on a panic. -/
def reconcile (keyRaw : String) (obj : Obj) : Option (List Signal) :=
  match obj with
  | Obj.nil => some [Signal.dead keyRaw]
  | Obj.other => none
  | Obj.pod pod =>
    if pod.Phase = "Running" then
      some [Signal.live
        { UniqueID := pod.Name
          App := mapIndex pod.Labels "app"
          HostName := pod.Name
          IPAddr := pod.PodIP
          VipAddress := pod.PodIP
          SecureVipAddress := pod.PodIP
          Status := StatusType.UP
          Port := 8080
          DataCenterInfo := DataCenterName.MyOwn }]
    else some []

/-- The method `ObjectCreated`. -/
def ObjectCreated (keyRaw : String) (obj : Obj) : Option (List Signal) :=
  reconcile keyRaw obj

/-- The method `ObjectDeleted`. -/
def ObjectDeleted (keyRaw : String) (obj : Obj) : Option (List Signal) :=
  reconcile keyRaw obj

/-- The method `ObjectUpdated`. -/
def ObjectUpdated (keyRaw : String) (_objOld objNew : Obj) : Option (List Signal) :=
  reconcile keyRaw objNew

/-! ## beat -/

/-- The calls of the `for _, i := range instances` loop of the tick case. -/
def tickCalls (instances : Table) : List Call :=
  instances.entries.map (fun e => Call.RegisterInstance e.2)

/-- One iteration of the `for { select { ... } }` loop of `beat`: the new
`instances` map and the registry calls issued, `none` when the iteration
panics (`strings.Split(key, "/")[1]` out of range). -/
def beatStep (instances : Table) : Event → Option (Table × List Call)
  | Event.tick => some (instances, tickCalls instances)
  | Event.signal (Signal.live i) =>
    let key := i.UniqueID
    some (instances.insert key i, [Call.RegisterInstance i])
  | Event.signal (Signal.dead key) =>
    match (Split key '/')[1]? with
    | none => none
    | some k =>
      let calls :=
        match instances.lookup k with
        | some i => [Call.DeregisterInstance i]
        | none => []
      some (instances.erase key, calls)

/-- The loop of `beat` run over a finite sequence of selected events, from a
given map: the final map and all registry calls in the order issued. -/
def beatRun (instances : Table) : List Event → Option (Table × List Call)
  | [] => some (instances, [])
  | e :: es =>
    match beatStep instances e with
    | none => none
    | some (t, cs) =>
      match beatRun t es with
      | none => none
      | some (t', cs') => some (t', cs ++ cs')

/-- The map `beat` starts from: `map[string]*fargo.Instance{}`. -/
def emptyTable : Table := ∅

/-- A sample instance with the given id, as `reconcile` builds it for a pod of
that name without labels and with pod IP `10.0.0.1`. -/
def sampleInstance (id : String) : Instance :=
  { UniqueID := id
    App := ""
    HostName := id
    IPAddr := "10.0.0.1"
    VipAddress := "10.0.0.1"
    SecureVipAddress := "10.0.0.1"
    Status := StatusType.UP
    Port := 8080
    DataCenterInfo := DataCenterName.MyOwn }

/-- A pod in phase `Running` named `web-1`, labelled `app=web`. -/
def samplePod : Pod :=
  { Name := "web-1"
    Labels := fun k => if k = "app" then some "web" else none
    Phase := "Running"
    PodIP := "10.0.0.7" }

/-- A pod in phase `Failed` named `web-1`, without labels. -/
def failedPod : Pod :=
  { Name := "web-1"
    Labels := fun _ => none
    Phase := "Failed"
    PodIP := "10.0.0.7" }

/-- The events of the sequences in which no stored id can equal a raw key: a
liveness signal whose instance id has no `/`, a death signal whose raw key has
a `/`, or a tick. -/
def sepFree : Event → Prop
  | Event.tick => True
  | Event.signal (Signal.live i) => '/' ∉ i.UniqueID.data
  | Event.signal (Signal.dead keyRaw) => '/' ∈ keyRaw.data

instance (e : Event) : Decidable (sepFree e) := by
  cases e with
  | tick => exact instDecidableTrue
  | signal s =>
    cases s with
    | live i => exact inferInstanceAs (Decidable ('/' ∉ i.UniqueID.data))
    | dead keyRaw => exact inferInstanceAs (Decidable ('/' ∈ keyRaw.data))

/-- Key/id consistency of a table: every entry is stored under the key equal
to its own id. -/
def keysAreIds (T : Table) : Prop :=
  ∀ (k : String) (i : Instance), T.lookup k = some i → i.UniqueID = k

/-- No key of the table contains the separator `/`. -/
def sepFreeKeys (T : Table) : Prop :=
  ∀ k : String, k ∈ T → '/' ∉ k.data

/-! ## Reference fold of the specification -/

/-- The table update the specification prescribes for one signal: a liveness
signal sets `table[instance.id] = instance`, a death signal deletes the entry
stored under the second `/`-segment of its raw key. -/
def specStep (table : Table) : Signal → Table
  | Signal.live i => table.insert i.UniqueID i
  | Signal.dead keyRaw =>
    match (Split keyRaw '/')[1]? with
    | some k => table.erase k
    | none => table

/-- The specification's fold of upsert-by-id and delete-by-derived-key over a
signal sequence, from the empty table. -/
def specFold (sigs : List Signal) : Table :=
  sigs.foldl specStep emptyTable

/-! ## Facts about Split -/

theorem splitChars_ne_nil (sep : Char) (cs : List Char) : splitChars sep cs ≠ [] := by
  cases cs with
  | nil => simp [splitChars]
  | cons c cs =>
    simp only [splitChars]
    split
    · simp
    · split <;> simp

theorem splitChars_of_not_mem (sep : Char) (cs : List Char) (h : sep ∉ cs) :
    splitChars sep cs = [cs] := by
  induction cs with
  | nil => rfl
  | cons c cs ih =>
    have hc : c ≠ sep := fun e => h (e ▸ List.mem_cons_self _ _)
    have ht : sep ∉ cs := fun m => h (List.mem_cons_of_mem _ m)
    simp only [splitChars, hc, if_false, ih ht]

theorem splitChars_append_sep (sep : Char) (a b : List Char) (h : sep ∉ a) :
    splitChars sep (a ++ sep :: b) = a :: splitChars sep b := by
  induction a with
  | nil => simp [splitChars]
  | cons c a ih =>
    have hc : c ≠ sep := fun e => h (e ▸ List.mem_cons_self _ _)
    have ht : sep ∉ a := fun m => h (List.mem_cons_of_mem _ m)
    simp only [List.cons_append, splitChars, hc, if_false, List.append_eq, ih ht]

theorem splitChars_head_not_mem (sep : Char) (cs hd : List Char) (tl : List (List Char))
    (h : splitChars sep cs = hd :: tl) : sep ∉ hd := by
  induction cs generalizing hd tl with
  | nil =>
    simp only [splitChars, List.cons.injEq] at h
    rw [← h.1]
    simp
  | cons c cs ih =>
    simp only [splitChars] at h
    split at h
    · simp only [List.cons.injEq] at h
      rw [← h.1]
      simp
    · rename_i hc
      split at h
      · rename_i e
        exact absurd e (splitChars_ne_nil sep cs)
      · rename_i seg rest e
        simp only [List.cons.injEq] at h
        rw [← h.1]
        intro hm
        rcases List.mem_cons.mp hm with hm | hm
        · exact hc hm.symm
        · exact ih seg rest e hm

theorem splitChars_index_one_none_iff (sep : Char) (cs : List Char) :
    (splitChars sep cs)[1]? = none ↔ sep ∉ cs := by
  induction cs with
  | nil => simp [splitChars]
  | cons c cs ih =>
    by_cases hc : c = sep
    · subst hc
      have hne := splitChars_ne_nil c cs
      simp only [splitChars, if_true, List.mem_cons, true_or, not_true_eq_false, iff_false]
      cases hs : splitChars c cs with
      | nil => exact absurd hs hne
      | cons x xs => simp
    · have hne := splitChars_ne_nil sep cs
      have hmem : sep ∈ c :: cs ↔ sep ∈ cs := by
        simp only [List.mem_cons]
        constructor
        · rintro (h | h)
          · exact absurd h.symm hc
          · exact h
        · exact Or.inr
      rw [hmem, ← ih]
      simp only [splitChars, hc, if_false]
      cases hs : splitChars sep cs with
      | nil => exact absurd hs hne
      | cons x xs => cases xs <;> simp

theorem Split_index_one_none_iff (key : String) :
    (Split key '/')[1]? = none ↔ '/' ∉ key.data := by
  rw [← splitChars_index_one_none_iff]
  simp [Split]

theorem Split_of_not_mem (n : String) (h : '/' ∉ n.data) : Split n '/' = [n] := by
  simp [Split, splitChars_of_not_mem _ _ h]

theorem Split_append_sep (ns n : String) (h : '/' ∉ ns.data) :
    Split (ns ++ "/" ++ n) '/' = ns :: Split n '/' := by
  have hd : (ns ++ "/" ++ n).data = ns.data ++ '/' :: n.data := by
    simp [String.data_append]
  simp [Split, hd, splitChars_append_sep _ _ _ h]

theorem Split_head_ne (n hd : String) (tl : List String) (hn : '/' ∈ n.data)
    (h : Split n '/' = hd :: tl) : hd ≠ n := by
  intro e
  subst e
  simp only [Split] at h
  cases hs : splitChars '/' hd.data with
  | nil => exact absurd hs (splitChars_ne_nil _ _)
  | cons x xs =>
    rw [hs] at h
    simp only [List.map_cons, List.cons.injEq] at h
    have hx : x = hd.data := by rw [← h.1]
    exact splitChars_head_not_mem _ _ _ _ hs (hx ▸ hn)

/-! ## Basic facts about the translator -/

theorem reconcile_running (keyRaw : String) (pod : Pod) (hp : pod.Phase = "Running") :
    reconcile keyRaw (Obj.pod pod) = some [Signal.live
      { UniqueID := pod.Name, App := mapIndex pod.Labels "app", HostName := pod.Name,
        IPAddr := pod.PodIP, VipAddress := pod.PodIP, SecureVipAddress := pod.PodIP,
        Status := StatusType.UP, Port := 8080, DataCenterInfo := DataCenterName.MyOwn }] := by
  simp only [reconcile, hp, if_true]

/-! ## Basic facts about the loop -/

theorem beatStep_tick (T : Table) :
    beatStep T Event.tick = some (T, tickCalls T) := rfl

theorem beatStep_live (T : Table) (i : Instance) :
    beatStep T (Event.signal (Signal.live i)) =
      some (T.insert i.UniqueID i, [Call.RegisterInstance i]) := rfl

theorem beatStep_dead_found (T : Table) (keyRaw k : String) (i : Instance)
    (hk : (Split keyRaw '/')[1]? = some k) (hi : T.lookup k = some i) :
    beatStep T (Event.signal (Signal.dead keyRaw)) =
      some (T.erase keyRaw, [Call.DeregisterInstance i]) := by
  simp only [beatStep, hk, hi]

theorem beatStep_dead_missing (T : Table) (keyRaw k : String)
    (hk : (Split keyRaw '/')[1]? = some k) (hi : T.lookup k = none) :
    beatStep T (Event.signal (Signal.dead keyRaw)) = some (T.erase keyRaw, []) := by
  simp only [beatStep, hk, hi]

theorem beatRun_cons_some (T T1 : Table) (e : Event) (es : List Event) (cs : List Call)
    (h : beatStep T e = some (T1, cs)) :
    beatRun T (e :: es) = (beatRun T1 es).map (fun r => (r.1, cs ++ r.2)) := by
  simp only [beatRun, h]
  cases beatRun T1 es <;> rfl

theorem beatRun_replicate_tick (T : Table) (n : Nat) :
    beatRun T (List.replicate n Event.tick) =
      some (T, (List.replicate n (tickCalls T)).flatten) := by
  induction n with
  | zero => rfl
  | succ n ih =>
    rw [List.replicate_succ, beatRun_cons_some T T Event.tick _ _ (beatStep_tick T), ih]
    simp [List.replicate_succ]

theorem beatRun_replicate_live (T : Table) (i : Instance) (n : Nat) :
    beatRun T (List.replicate (n + 1) (Event.signal (Signal.live i))) =
      some (T.insert i.UniqueID i, List.replicate (n + 1) (Call.RegisterInstance i)) := by
  induction n generalizing T with
  | zero => rfl
  | succ n ih =>
    rw [List.replicate_succ, beatRun_cons_some T _ _ _ _ (beatStep_live T i), ih,
      AList.insert_insert]
    simp [List.replicate_succ]

theorem register_mem_tickCalls (T : Table) (k : String) (i : Instance)
    (h : T.lookup k = some i) : Call.RegisterInstance i ∈ tickCalls T := by
  have hm : (⟨k, i⟩ : Sigma (fun _ : String => Instance)) ∈ T.entries :=
    AList.mem_lookup_iff.mp h
  exact List.mem_map.mpr ⟨⟨k, i⟩, hm, rfl⟩

theorem beatRun_append_some (T T1 T2 : Table) (a b : List Event) (c1 c2 : List Call)
    (ha : beatRun T a = some (T1, c1)) (hb : beatRun T1 b = some (T2, c2)) :
    beatRun T (a ++ b) = some (T2, c1 ++ c2) := by
  induction a generalizing T c1 with
  | nil =>
    simp only [beatRun, Option.some.injEq, Prod.mk.injEq] at ha
    obtain ⟨rfl, rfl⟩ := ha
    simpa using hb
  | cons e es ih =>
    cases hs : beatStep T e with
    | none => simp [beatRun, hs] at ha
    | some r =>
      obtain ⟨T0, c0⟩ := r
      rw [beatRun_cons_some T T0 e es c0 hs] at ha
      rw [List.cons_append, beatRun_cons_some T T0 e (es ++ b) c0 hs]
      cases hr : beatRun T0 es with
      | none => simp [hr] at ha
      | some r1 =>
        obtain ⟨T3, c3⟩ := r1
        rw [hr] at ha
        simp only [Option.map_some', Option.some.injEq, Prod.mk.injEq] at ha
        obtain ⟨rfl, rfl⟩ := ha
        rw [ih T0 c3 hr]
        simp

/-! ## Invariants of the loop -/

theorem erase_of_not_mem (T : Table) (key : String) (h : key ∉ T) : T.erase key = T := by
  apply AList.ext
  exact List.kerase_of_not_mem_keys (fun hk => h (AList.mem_keys.mpr hk))

theorem keysAreIds_empty : keysAreIds emptyTable := by
  intro k i h
  simp [emptyTable, AList.lookup_empty] at h

theorem beatStep_keysAreIds (T T1 : Table) (e : Event) (cs : List Call)
    (hT : keysAreIds T) (h : beatStep T e = some (T1, cs)) : keysAreIds T1 := by
  cases e with
  | tick =>
    simp only [beatStep, Option.some.injEq, Prod.mk.injEq] at h
    exact h.1 ▸ hT
  | signal s =>
    cases s with
    | live j =>
      simp only [beatStep, Option.some.injEq, Prod.mk.injEq] at h
      rw [← h.1]
      intro k i hk
      by_cases hkj : k = j.UniqueID
      · subst hkj
        rw [AList.lookup_insert] at hk
        exact (Option.some.inj hk) ▸ rfl
      · rw [AList.lookup_insert_ne hkj] at hk
        exact hT k i hk
    | dead key =>
      simp only [beatStep] at h
      split at h
      · exact absurd h (by simp)
      · simp only [Option.some.injEq, Prod.mk.injEq] at h
        rw [← h.1]
        intro k i hk
        by_cases hkk : k = key
        · subst hkk
          rw [AList.lookup_erase] at hk
          exact absurd hk (by simp)
        · rw [AList.lookup_erase_ne hkk] at hk
          exact hT k i hk

theorem beatRun_keysAreIds (T T1 : Table) (es : List Event) (cs : List Call)
    (hT : keysAreIds T) (h : beatRun T es = some (T1, cs)) : keysAreIds T1 := by
  induction es generalizing T cs with
  | nil =>
    simp only [beatRun, Option.some.injEq, Prod.mk.injEq] at h
    exact h.1 ▸ hT
  | cons e es ih =>
    cases hs : beatStep T e with
    | none => simp [beatRun, hs] at h
    | some r =>
      obtain ⟨T0, c0⟩ := r
      rw [beatRun_cons_some T T0 e es c0 hs] at h
      cases hr : beatRun T0 es with
      | none => simp [hr] at h
      | some r1 =>
        obtain ⟨T3, c3⟩ := r1
        rw [hr] at h
        simp only [Option.map_some', Option.some.injEq, Prod.mk.injEq] at h
        obtain ⟨rfl, -⟩ := h
        exact ih T0 c3 (beatStep_keysAreIds T T0 e c0 hT hs) hr

theorem sepFreeKeys_empty : sepFreeKeys emptyTable := by
  intro k hk
  exact absurd hk (AList.not_mem_empty k)

theorem beatStep_sepFree (T : Table) (e : Event) (hT : sepFreeKeys T) (he : sepFree e) :
    ∃ T1 cs, beatStep T e = some (T1, cs) ∧ sepFreeKeys T1 ∧ (∀ k : String, k ∈ T → k ∈ T1) ∧
      ∀ key, e = Event.signal (Signal.dead key) → T1 = T := by
  cases e with
  | tick => exact ⟨T, _, rfl, hT, fun _ h => h, fun _ _ => rfl⟩
  | signal s =>
    cases s with
    | live j =>
      refine ⟨_, _, beatStep_live T j, ?_, ?_, ?_⟩
      · intro k hk
        rcases (AList.mem_insert T).mp hk with h | h
        · exact h ▸ he
        · exact hT k h
      · intro k hk
        exact (AList.mem_insert T).mpr (Or.inr hk)
      · intro key hkey
        cases hkey
    | dead key =>
      have hslash : '/' ∈ key.data := he
      have hnot : key ∉ T := fun hm => hT key hm hslash
      cases hk : (Split key '/')[1]? with
      | none => exact absurd hslash ((Split_index_one_none_iff key).mp hk)
      | some k =>
        refine ⟨T, (match T.lookup k with
          | some i => [Call.DeregisterInstance i]
          | none => []), ?_, hT, fun _ h => h, fun _ _ => rfl⟩
        simp only [beatStep, hk, erase_of_not_mem T key hnot]

theorem beatRun_sepFree (T : Table) (es : List Event) (hT : sepFreeKeys T)
    (hes : ∀ e ∈ es, sepFree e) :
    ∃ T1 cs, beatRun T es = some (T1, cs) ∧ sepFreeKeys T1 ∧ ∀ k : String, k ∈ T → k ∈ T1 := by
  induction es generalizing T with
  | nil => exact ⟨T, [], rfl, hT, fun _ h => h⟩
  | cons e es ih =>
    obtain ⟨T0, c0, hs, hT0, hsub0, -⟩ :=
      beatStep_sepFree T e hT (hes e (List.mem_cons_self _ _))
    obtain ⟨T1, c1, hr, hT1, hsub1⟩ :=
      ih T0 hT0 (fun x hx => hes x (List.mem_cons_of_mem _ hx))
    refine ⟨T1, c0 ++ c1, ?_, hT1, fun k hk => hsub1 k (hsub0 k hk)⟩
    rw [beatRun_cons_some T T0 e es c0 hs, hr]
    rfl

/-! ## The death step -/

/-- C1, evaluated on the code: from the empty table, the liveness signal of an
instance with id `a` followed by the death signal `ns/a` ends with the entry
still stored under `a`; the death step deregisters it but deletes under the raw
key `ns/a`, so the table is not empty. -/
theorem C1_death_keeps_matching_entry :
    ∃ T, beatRun emptyTable
        [Event.signal (Signal.live (sampleInstance "a")), Event.signal (Signal.dead "ns/a")] =
        some (T, [Call.RegisterInstance (sampleInstance "a"),
          Call.DeregisterInstance (sampleInstance "a")]) ∧
      T.lookup "a" = some (sampleInstance "a") ∧
      T.entries ≠ emptyTable.entries :=
  ⟨emptyTable.insert "a" (sampleInstance "a"), rfl, by decide, by decide⟩

/-- C2, evaluated on the code: on the signal sequence live `a`, dead `ns/a`
the loop's final table still holds `a`, while the specification's fold of
upsert-by-id and delete-by-derived-key gives the empty table; `a` is in the
final table although a later death signal with derived key `a` occurs. -/
theorem C2_run_differs_from_specFold :
    ∃ T cs, beatRun emptyTable
        ([Signal.live (sampleInstance "a"), Signal.dead "ns/a"].map Event.signal) =
        some (T, cs) ∧
      T.lookup "a" = some (sampleInstance "a") ∧
      (specFold [Signal.live (sampleInstance "a"), Signal.dead "ns/a"]).lookup "a" = none ∧
      (Split "ns/a" '/')[1]? = some "a" ∧
      T ≠ specFold [Signal.live (sampleInstance "a"), Signal.dead "ns/a"] := by
  refine ⟨emptyTable.insert "a" (sampleInstance "a"), _, rfl, by decide, by decide,
    by decide, ?_⟩
  intro h
  have h2 := congrArg (AList.lookup "a") h
  revert h2
  decide

/-- C3, evaluated on the code: with the table holding one entry under the key
`ns/b`, the death signal `ns/b` has derived key `b`, which is not a key of the
table; the step issues no call, yet it deletes the entry under the raw key and
the table changes.  That table is the one the loop reaches from the empty
table by the liveness signal of an instance with id `ns/b`. -/
theorem C3_death_erases_raw_key_entry :
    (Split "ns/b" '/')[1]? = some "b" ∧
    (emptyTable.insert "ns/b" (sampleInstance "ns/b")).lookup "b" = none ∧
    beatStep (emptyTable.insert "ns/b" (sampleInstance "ns/b"))
        (Event.signal (Signal.dead "ns/b")) = some (emptyTable, []) ∧
    (emptyTable.insert "ns/b" (sampleInstance "ns/b")).entries ≠ emptyTable.entries ∧
    beatRun emptyTable [Event.signal (Signal.live (sampleInstance "ns/b"))] =
      some (emptyTable.insert "ns/b" (sampleInstance "ns/b"),
        [Call.RegisterInstance (sampleInstance "ns/b")]) :=
  ⟨by decide, by decide, rfl, by decide, rfl⟩

/-- C4: when the second `/`-segment `k` of the raw key is a key of the table,
the death step issues exactly one registry call, `DeregisterInstance` of the
instance stored at `k`, and no `RegisterInstance`; from the empty table the
liveness signal of an instance with id `a` followed by the death signal `ns/a`
gives the calls register, deregister of that instance. -/
theorem C4_death_deregisters_stored_instance (T : Table) (keyRaw k : String) (i : Instance)
    (hk : (Split keyRaw '/')[1]? = some k) (hi : T.lookup k = some i) :
    (∃ T', beatStep T (Event.signal (Signal.dead keyRaw)) =
        some (T', [Call.DeregisterInstance i])) ∧
    ∀ a : Instance,
      (beatRun emptyTable
        [Event.signal (Signal.live { a with UniqueID := "a" }),
          Event.signal (Signal.dead "ns/a")]).map Prod.snd =
        some [Call.RegisterInstance { a with UniqueID := "a" },
          Call.DeregisterInstance { a with UniqueID := "a" }] := by
  refine ⟨⟨T.erase keyRaw, beatStep_dead_found T keyRaw k i hk hi⟩, fun a => ?_⟩
  rw [beatRun_cons_some _ _ _ _ _ (beatStep_live _ _),
    beatRun_cons_some _ _ _ _ _
      (beatStep_dead_found _ "ns/a" "a" { a with UniqueID := "a" } (by decide)
        (AList.lookup_insert _))]
  rfl

/-- The statement of C4 at a concrete input. -/
theorem C4_death_deregisters_stored_instance_witness :
    ((Split "ns/a" '/')[1]? = some "a" ∧
      (emptyTable.insert "a" (sampleInstance "a")).lookup "a" = some (sampleInstance "a")) ∧
    ∃ T', beatStep (emptyTable.insert "a" (sampleInstance "a"))
        (Event.signal (Signal.dead "ns/a")) =
      some (T', [Call.DeregisterInstance (sampleInstance "a")]) :=
  ⟨⟨by decide, by decide⟩,
    (C4_death_deregisters_stored_instance (emptyTable.insert "a" (sampleInstance "a"))
      "ns/a" "a" (sampleInstance "a") (by decide) (by decide)).1⟩

/-! ## The tick and liveness steps -/

/-- C5: a tick on a table with N entries leaves the table unchanged and issues
exactly N registry calls, all of them `RegisterInstance`, whose arguments are
as a multiset the instances stored in the table; from the empty table the
liveness signal of an instance with id `a` followed by one tick gives the
table holding `a` and the calls register, register of that instance. -/
theorem C5_tick_registers_every_entry (T : Table) :
    (∃ cs, beatStep T Event.tick = some (T, cs) ∧
      cs.length = T.entries.length ∧
      (cs : Multiset Call) =
        Multiset.map Call.RegisterInstance
          (Multiset.map (fun e => e.2) (T.entries : Multiset (Sigma fun _ : String => Instance))) ∧
      (∀ c ∈ cs, ∃ i, c = Call.RegisterInstance i) ∧
      (∀ i, Call.DeregisterInstance i ∉ cs)) ∧
    ∀ a : Instance,
      beatRun emptyTable [Event.signal (Signal.live { a with UniqueID := "a" }), Event.tick] =
        some (emptyTable.insert "a" { a with UniqueID := "a" },
          [Call.RegisterInstance { a with UniqueID := "a" },
            Call.RegisterInstance { a with UniqueID := "a" }]) := by
  refine ⟨⟨tickCalls T, rfl, by simp [tickCalls], ?_, ?_, ?_⟩, fun a => rfl⟩
  · simp [tickCalls, Multiset.map_map, Function.comp_def]
  · intro c hc
    obtain ⟨e, -, rfl⟩ := List.mem_map.mp hc
    exact ⟨e.2, rfl⟩
  · intro i hi
    obtain ⟨e, -, he⟩ := List.mem_map.mp hi
    cases he

/-- C6: the liveness step for an instance `i` stores `i` under `i.UniqueID`,
leaves the entry of every other key as it was, and issues exactly one registry
call, `RegisterInstance i`. -/
theorem C6_liveness_upserts_and_registers (T : Table) (i : Instance) (k : String)
    (hk : k ≠ i.UniqueID) :
    ∃ T', beatStep T (Event.signal (Signal.live i)) = some (T', [Call.RegisterInstance i]) ∧
      T'.lookup i.UniqueID = some i ∧
      T'.lookup k = T.lookup k :=
  ⟨T.insert i.UniqueID i, rfl, AList.lookup_insert T, AList.lookup_insert_ne hk⟩

/-- The statement of C6 at a concrete input. -/
theorem C6_liveness_upserts_and_registers_witness :
    "b" ≠ (sampleInstance "a").UniqueID ∧
    ∃ T', beatStep (emptyTable.insert "b" (sampleInstance "b"))
        (Event.signal (Signal.live (sampleInstance "a"))) =
        some (T', [Call.RegisterInstance (sampleInstance "a")]) ∧
      T'.lookup (sampleInstance "a").UniqueID = some (sampleInstance "a") ∧
      T'.lookup "b" = (emptyTable.insert "b" (sampleInstance "b")).lookup "b" :=
  ⟨by decide,
    C6_liveness_upserts_and_registers (emptyTable.insert "b" (sampleInstance "b"))
      (sampleInstance "a") "b" (by decide)⟩

/-- C7: for n ≥ 1, processing n consecutive liveness signals for the same
instance `i` ends in the same table as processing one, with exactly one entry
under `i.UniqueID`, while the calls issued are n times `RegisterInstance i`. -/
theorem C7_repeated_liveness (T : Table) (i : Instance) (n : Nat) (hn : 1 ≤ n) :
    ∃ T' cs, beatRun T (List.replicate n (Event.signal (Signal.live i))) = some (T', cs) ∧
      beatRun T [Event.signal (Signal.live i)] = some (T', [Call.RegisterInstance i]) ∧
      T'.lookup i.UniqueID = some i ∧
      T'.keys.count i.UniqueID = 1 ∧
      cs = List.replicate n (Call.RegisterInstance i) ∧
      cs.count (Call.RegisterInstance i) = n ∧
      cs.length = n := by
  obtain ⟨m, rfl⟩ : ∃ m, n = m + 1 := ⟨n - 1, by omega⟩
  refine ⟨T.insert i.UniqueID i, _, beatRun_replicate_live T i m, rfl,
    AList.lookup_insert T, ?_, rfl, List.count_replicate_self _ _, List.length_replicate _ _⟩
  apply List.count_eq_one_of_mem (AList.keys_nodup _)
  rw [AList.keys_insert]
  exact List.mem_cons_self _ _

/-- The statement of C7 at a concrete input. -/
theorem C7_repeated_liveness_witness :
    1 ≤ 3 ∧
    ∃ T' cs, beatRun emptyTable
        (List.replicate 3 (Event.signal (Signal.live (sampleInstance "a")))) = some (T', cs) ∧
      beatRun emptyTable [Event.signal (Signal.live (sampleInstance "a"))] =
        some (T', [Call.RegisterInstance (sampleInstance "a")]) ∧
      T'.lookup (sampleInstance "a").UniqueID = some (sampleInstance "a") ∧
      T'.keys.count (sampleInstance "a").UniqueID = 1 ∧
      cs = List.replicate 3 (Call.RegisterInstance (sampleInstance "a")) ∧
      cs.count (Call.RegisterInstance (sampleInstance "a")) = 3 ∧
      cs.length = 3 :=
  ⟨by decide, C7_repeated_liveness emptyTable (sampleInstance "a") 3 (by decide)⟩

/-! ## The translator -/

/-- C8: for a pod in phase `Running`, `reconcile` sends exactly one signal, a
liveness signal whose instance has id the pod name, app name the value of the
label `app` (the empty string when the label is absent), address the pod IP,
port 8080 and status UP, and no death signal; every instance `reconcile` ever
sends has status UP. -/
theorem C8_running_emits_liveness (keyRaw : String) (pod : Pod)
    (hp : pod.Phase = "Running") :
    (∃ i, reconcile keyRaw (Obj.pod pod) = some [Signal.live i] ∧
      i.UniqueID = pod.Name ∧
      i.App = (pod.Labels "app").getD "" ∧
      i.IPAddr = pod.PodIP ∧ i.VipAddress = pod.PodIP ∧ i.SecureVipAddress = pod.PodIP ∧
      i.Port = 8080 ∧
      i.Status = StatusType.UP) ∧
    (∀ (key : String) (obj : Obj) (sigs : List Signal) (i : Instance),
      reconcile key obj = some sigs → Signal.live i ∈ sigs → i.Status = StatusType.UP) := by
  constructor
  · have hr : reconcile keyRaw (Obj.pod pod) = some [Signal.live
        { UniqueID := pod.Name, App := mapIndex pod.Labels "app", HostName := pod.Name,
          IPAddr := pod.PodIP, VipAddress := pod.PodIP, SecureVipAddress := pod.PodIP,
          Status := StatusType.UP, Port := 8080, DataCenterInfo := DataCenterName.MyOwn }] := by
      simp only [reconcile, hp, if_true]
    exact ⟨_, hr, rfl, rfl, rfl, rfl, rfl, rfl, rfl⟩
  · intro key obj sigs i hs hi
    cases obj with
    | nil =>
      simp only [reconcile, Option.some.injEq] at hs
      subst hs
      simp at hi
    | other => simp [reconcile] at hs
    | pod q =>
      simp only [reconcile] at hs
      split at hs
      · simp only [Option.some.injEq] at hs
        subst hs
        simp only [List.mem_singleton, Signal.live.injEq] at hi
        subst hi
        rfl
      · simp only [Option.some.injEq] at hs
        subst hs
        simp at hi

/-- The statement of C8 at a concrete input. -/
theorem C8_running_emits_liveness_witness :
    samplePod.Phase = "Running" ∧
    ∃ i, reconcile "default/web-1" (Obj.pod samplePod) = some [Signal.live i] ∧
      i.UniqueID = samplePod.Name ∧
      i.App = (samplePod.Labels "app").getD "" ∧
      i.IPAddr = samplePod.PodIP ∧ i.VipAddress = samplePod.PodIP ∧
      i.SecureVipAddress = samplePod.PodIP ∧
      i.Port = 8080 ∧
      i.Status = StatusType.UP :=
  ⟨rfl, (C8_running_emits_liveness "default/web-1" samplePod rfl).1⟩

/-- C9: called with the nil object, `reconcile` sends exactly one signal, the
death signal carrying the raw key unchanged, and no liveness signal. -/
theorem C9_nil_emits_death (keyRaw : String) :
    reconcile keyRaw Obj.nil = some [Signal.dead keyRaw] ∧
    ∀ i, Signal.live i ∉ [Signal.dead keyRaw] := by
  refine ⟨rfl, fun i hi => ?_⟩
  simp at hi

/-- C10: for a pod whose phase is not `Running`, `reconcile` sends no signal;
the loop fed with what was sent leaves the table as it was, and every entry of
the table is registered again by each subsequent tick. -/
theorem C10_other_phase_emits_nothing (keyRaw : String) (pod : Pod)
    (hp : pod.Phase ≠ "Running") :
    ∃ sigs, reconcile keyRaw (Obj.pod pod) = some sigs ∧ sigs = [] ∧
      ∀ (T : Table) (n : Nat),
        beatRun T (sigs.map Event.signal ++ List.replicate n Event.tick) =
          some (T, (List.replicate n (tickCalls T)).flatten) ∧
        ∀ (k : String) (i : Instance), T.lookup k = some i →
          Call.RegisterInstance i ∈ tickCalls T := by
  refine ⟨[], ?_, rfl, fun T n => ⟨?_, fun k i h => register_mem_tickCalls T k i h⟩⟩
  · simp only [reconcile, hp, if_false]
  · exact beatRun_replicate_tick T n

/-- The statement of C10 at a concrete input. -/
theorem C10_other_phase_emits_nothing_witness :
    failedPod.Phase ≠ "Running" ∧
    ∃ sigs, reconcile "default/web-1" (Obj.pod failedPod) = some sigs ∧ sigs = [] ∧
      ∀ (T : Table) (n : Nat),
        beatRun T (sigs.map Event.signal ++ List.replicate n Event.tick) =
          some (T, (List.replicate n (tickCalls T)).flatten) ∧
        ∀ (k : String) (i : Instance), T.lookup k = some i →
          Call.RegisterInstance i ∈ tickCalls T :=
  ⟨by decide, C10_other_phase_emits_nothing "default/web-1" failedPod (by decide)⟩

/-! ## Key derivation -/

/-- C12: for a namespace `ns` without `/` and a workload name `n`, element 1
of splitting the raw key `ns/n` on `/` equals `n` if and only if `n` contains
no `/`; and `n` is the id under which the liveness signal that `reconcile`
sends for a running pod of that name is inserted by the loop. -/
theorem C12_keys_coincide_iff_no_separator (ns n : String) (hns : '/' ∉ ns.data) :
    ((Split (ns ++ "/" ++ n) '/')[1]? = some n ↔ '/' ∉ n.data) ∧
    ∀ pod : Pod, pod.Name = n → pod.Phase = "Running" →
      ∃ i, reconcile (ns ++ "/" ++ n) (Obj.pod pod) = some [Signal.live i] ∧
        i.UniqueID = n ∧
        ∀ T : Table, ∃ T', beatStep T (Event.signal (Signal.live i)) =
            some (T', [Call.RegisterInstance i]) ∧
          T'.lookup n = some i := by
  constructor
  · rw [Split_append_sep ns n hns]
    constructor
    · intro h hn
      cases hs : Split n '/' with
      | nil => rw [hs] at h; simp at h
      | cons hd tl =>
        rw [hs] at h
        simp only [List.getElem?_cons_succ, List.getElem?_cons_zero, Option.some.injEq] at h
        exact Split_head_ne n hd tl hn hs h
    · intro hn
      rw [Split_of_not_mem n hn]
      rfl
  · intro pod hname hphase
    refine ⟨_, reconcile_running _ pod hphase, hname, fun T => ⟨_, beatStep_live T _, ?_⟩⟩
    subst hname
    exact AList.lookup_insert T

/-- The statement of C12 at the namespace `default` and the name `web-1`. -/
theorem C12_keys_coincide_iff_no_separator_witness :
    '/' ∉ "default".data ∧
    ((Split ("default" ++ "/" ++ "web-1") '/')[1]? = some "web-1" ↔ '/' ∉ "web-1".data) :=
  ⟨by decide, (C12_keys_coincide_iff_no_separator "default" "web-1" (by decide)).1⟩

/-- C13: the death step completes (does not panic) if and only if the raw key
contains a `/`; for a raw key without `/`, the empty string included, the split
has the single element `key`, element 1 is out of range and the step fails
with no table and no call produced. -/
theorem C13_death_step_partial (T : Table) (key : String) :
    ((beatStep T (Event.signal (Signal.dead key))).isSome ↔ '/' ∈ key.data) ∧
    ('/' ∉ key.data →
      Split key '/' = [key] ∧ (Split key '/')[1]? = none ∧
      beatStep T (Event.signal (Signal.dead key)) = none) ∧
    ('/' ∈ key.data →
      ∃ k cs, (Split key '/')[1]? = some k ∧
        beatStep T (Event.signal (Signal.dead key)) = some (T.erase key, cs)) ∧
    beatStep T (Event.signal (Signal.dead "")) = none := by
  have hnone : '/' ∉ key.data → beatStep T (Event.signal (Signal.dead key)) = none := by
    intro h
    simp only [beatStep, (Split_index_one_none_iff key).mpr h]
  have hsome : '/' ∈ key.data →
      ∃ k cs, (Split key '/')[1]? = some k ∧
        beatStep T (Event.signal (Signal.dead key)) = some (T.erase key, cs) := by
    intro h
    cases hk : (Split key '/')[1]? with
    | none => exact absurd h ((Split_index_one_none_iff key).mp hk)
    | some k =>
      refine ⟨k, (match T.lookup k with
        | some i => [Call.DeregisterInstance i]
        | none => []), rfl, ?_⟩
      simp only [beatStep, hk]
  refine ⟨⟨fun h => ?_, fun h => ?_⟩, fun h => ⟨Split_of_not_mem key h,
    (Split_index_one_none_iff key).mpr h, hnone h⟩, hsome, rfl⟩
  · by_contra hn
    rw [hnone hn] at h
    exact absurd h (by simp)
  · obtain ⟨k, cs, -, hs⟩ := hsome h
    rw [hs]
    rfl

/-! ## The callbacks -/

/-- C15: `ObjectCreated`, `ObjectDeleted` and `ObjectUpdated` (for any old
object) send exactly what `reconcile` sends for the raw key and the (new)
object; `ObjectDeleted` with a pod in phase `Running` sends one liveness signal
and no death signal, and `ObjectCreated` with the nil object sends the death
signal of the raw key. -/
theorem C15_callbacks_agree (keyRaw : String) (obj objOld : Obj) (pod : Pod)
    (hp : pod.Phase = "Running") :
    ObjectCreated keyRaw obj = reconcile keyRaw obj ∧
    ObjectDeleted keyRaw obj = reconcile keyRaw obj ∧
    ObjectUpdated keyRaw objOld obj = reconcile keyRaw obj ∧
    (∃ i, ObjectDeleted keyRaw (Obj.pod pod) = some [Signal.live i] ∧
      i.UniqueID = pod.Name) ∧
    ObjectCreated keyRaw Obj.nil = some [Signal.dead keyRaw] := by
  exact ⟨rfl, rfl, rfl, ⟨_, reconcile_running keyRaw pod hp, rfl⟩, rfl⟩

/-- The statement of C15 at the running pod `web-1`. -/
theorem C15_callbacks_agree_witness :
    samplePod.Phase = "Running" ∧
    ObjectCreated "default/web-1" Obj.nil = reconcile "default/web-1" Obj.nil ∧
    ObjectDeleted "default/web-1" Obj.nil = reconcile "default/web-1" Obj.nil ∧
    ObjectUpdated "default/web-1" (Obj.pod failedPod) Obj.nil =
      reconcile "default/web-1" Obj.nil ∧
    (∃ i, ObjectDeleted "default/web-1" (Obj.pod samplePod) = some [Signal.live i] ∧
      i.UniqueID = samplePod.Name) ∧
    ObjectCreated "default/web-1" Obj.nil = some [Signal.dead "default/web-1"] :=
  ⟨rfl, C15_callbacks_agree "default/web-1" Obj.nil (Obj.pod failedPod) samplePod rfl⟩

/-! ## What the loop preserves -/

/-- C14: from the empty table, along every sequence of ticks, liveness signals
whose instance id has no `/` and death signals whose raw key has a `/`, no
event panics and the ids in the table after each event include those before
it (a death step leaves the table as it was, the raw key never being a stored
id); hence an id once stored stays stored: a later death signal with that
derived key issues `DeregisterInstance` of the stored instance again, without
removing it, and a later tick registers it again. -/
theorem C14_table_never_shrinks (es : List Event) (hes : ∀ e ∈ es, sepFree e) :
    (∀ pre e post, es = pre ++ e :: post →
      ∃ T0 cs0 T1 cs1, beatRun emptyTable pre = some (T0, cs0) ∧
        beatStep T0 e = some (T1, cs1) ∧
        (∀ k : String, k ∈ T0 → k ∈ T1) ∧
        (∀ key, e = Event.signal (Signal.dead key) → T1 = T0)) ∧
    (∀ pre post, es = pre ++ post →
      ∃ T0 cs0 T cs, beatRun emptyTable pre = some (T0, cs0) ∧
        beatRun T0 post = some (T, cs) ∧
        beatRun emptyTable es = some (T, cs0 ++ cs) ∧
        ∀ k : String, k ∈ T0 →
          ∃ i, T.lookup k = some i ∧
            Call.RegisterInstance i ∈ tickCalls T ∧
            ∀ keyRaw, (Split keyRaw '/')[1]? = some k →
              beatStep T (Event.signal (Signal.dead keyRaw)) =
                some (T, [Call.DeregisterInstance i])) := by
  constructor
  · intro pre e post hsplit
    subst hsplit
    obtain ⟨T0, cs0, hr, hT0, -⟩ :=
      beatRun_sepFree emptyTable pre sepFreeKeys_empty
        (fun x hx => hes x (List.mem_append_left _ hx))
    obtain ⟨T1, cs1, hs, -, hsub, hdead⟩ :=
      beatStep_sepFree T0 e hT0 (hes e (List.mem_append_right _ (List.mem_cons_self _ _)))
    exact ⟨T0, cs0, T1, cs1, hr, hs, hsub, hdead⟩
  · intro pre post hsplit
    subst hsplit
    obtain ⟨T0, cs0, hr, hT0, -⟩ :=
      beatRun_sepFree emptyTable pre sepFreeKeys_empty
        (fun x hx => hes x (List.mem_append_left _ hx))
    obtain ⟨T, cs, hr2, hT, hsub⟩ :=
      beatRun_sepFree T0 post hT0 (fun x hx => hes x (List.mem_append_right _ hx))
    refine ⟨T0, cs0, T, cs, hr, hr2, beatRun_append_some _ _ _ _ _ _ _ hr hr2, ?_⟩
    intro k hk
    have hkT : k ∈ T := hsub k hk
    obtain ⟨i, hi⟩ := Option.isSome_iff_exists.mp (AList.lookup_isSome.mpr hkT)
    refine ⟨i, hi, register_mem_tickCalls T k i hi, fun keyRaw hkey => ?_⟩
    have hslash : '/' ∈ keyRaw.data := by
      by_contra hn
      rw [(Split_index_one_none_iff keyRaw).mpr hn] at hkey
      exact absurd hkey (by simp)
    have hnot : keyRaw ∉ T := fun hm => hT keyRaw hm hslash
    rw [beatStep_dead_found T keyRaw k i hkey hi, erase_of_not_mem T keyRaw hnot]

/-- The statement of C14 on the sequence live `a`, dead `ns/a`, dead `ns/a`,
tick, split after the liveness signal. -/
theorem C14_table_never_shrinks_witness :
    (∀ e ∈ [Event.signal (Signal.live (sampleInstance "a")),
        Event.signal (Signal.dead "ns/a"), Event.signal (Signal.dead "ns/a"), Event.tick],
      sepFree e) ∧
    ∃ T0 cs0 T cs,
      beatRun emptyTable [Event.signal (Signal.live (sampleInstance "a"))] = some (T0, cs0) ∧
      beatRun T0 [Event.signal (Signal.dead "ns/a"), Event.signal (Signal.dead "ns/a"),
        Event.tick] = some (T, cs) ∧
      beatRun emptyTable [Event.signal (Signal.live (sampleInstance "a")),
        Event.signal (Signal.dead "ns/a"), Event.signal (Signal.dead "ns/a"), Event.tick] =
        some (T, cs0 ++ cs) ∧
      ∀ k : String, k ∈ T0 →
        ∃ i, T.lookup k = some i ∧
          Call.RegisterInstance i ∈ tickCalls T ∧
          ∀ keyRaw, (Split keyRaw '/')[1]? = some k →
            beatStep T (Event.signal (Signal.dead keyRaw)) =
              some (T, [Call.DeregisterInstance i]) :=
  ⟨by decide,
    (C14_table_never_shrinks
      [Event.signal (Signal.live (sampleInstance "a")),
        Event.signal (Signal.dead "ns/a"), Event.signal (Signal.dead "ns/a"), Event.tick]
      (by decide)).2
      [Event.signal (Signal.live (sampleInstance "a"))]
      [Event.signal (Signal.dead "ns/a"), Event.signal (Signal.dead "ns/a"), Event.tick] rfl⟩

/-- C16: in every table the loop reaches from the empty table by a sequence of
tick, liveness and death steps, every entry is stored under the key equal to
its own id; so the instance passed to a `DeregisterInstance` call of a death
step has the id equal to the derived key it was looked up by. -/
theorem C16_keys_are_ids (es : List Event) (T : Table) (cs : List Call)
    (h : beatRun emptyTable es = some (T, cs)) :
    (∀ (k : String) (i : Instance), T.lookup k = some i → i.UniqueID = k) ∧
    ∀ (keyRaw : String) (T1 : Table) (cs1 : List Call) (i : Instance),
      beatStep T (Event.signal (Signal.dead keyRaw)) = some (T1, cs1) →
      Call.DeregisterInstance i ∈ cs1 →
      (Split keyRaw '/')[1]? = some i.UniqueID ∧ T.lookup i.UniqueID = some i := by
  have hT : keysAreIds T := beatRun_keysAreIds emptyTable T es cs keysAreIds_empty h
  refine ⟨hT, ?_⟩
  intro keyRaw T1 cs1 i hs hi
  simp only [beatStep] at hs
  cases hk : (Split keyRaw '/')[1]? with
  | none => simp [hk] at hs
  | some k =>
    cases hl : T.lookup k with
    | none =>
      simp only [hk, hl, Option.some.injEq, Prod.mk.injEq] at hs
      rw [← hs.2] at hi
      simp at hi
    | some j =>
      simp only [hk, hl, Option.some.injEq, Prod.mk.injEq] at hs
      rw [← hs.2] at hi
      simp only [List.mem_singleton, Call.DeregisterInstance.injEq] at hi
      subst hi
      have hid : i.UniqueID = k := hT k i hl
      rw [hid]
      exact ⟨rfl, hl⟩

/-- The statement of C16 on the run live `a`, dead `ns/a`. -/
theorem C16_keys_are_ids_witness :
    beatRun emptyTable
        [Event.signal (Signal.live (sampleInstance "a")), Event.signal (Signal.dead "ns/a")] =
      some (emptyTable.insert "a" (sampleInstance "a"),
        [Call.RegisterInstance (sampleInstance "a"),
          Call.DeregisterInstance (sampleInstance "a")]) ∧
    (∀ (k : String) (i : Instance),
      (emptyTable.insert "a" (sampleInstance "a")).lookup k = some i → i.UniqueID = k) ∧
    ∀ (keyRaw : String) (T1 : Table) (cs1 : List Call) (i : Instance),
      beatStep (emptyTable.insert "a" (sampleInstance "a"))
        (Event.signal (Signal.dead keyRaw)) = some (T1, cs1) →
      Call.DeregisterInstance i ∈ cs1 →
      (Split keyRaw '/')[1]? = some i.UniqueID ∧
        (emptyTable.insert "a" (sampleInstance "a")).lookup i.UniqueID = some i :=
  ⟨rfl, C16_keys_are_ids
    [Event.signal (Signal.live (sampleInstance "a")), Event.signal (Signal.dead "ns/a")]
    (emptyTable.insert "a" (sampleInstance "a"))
    [Call.RegisterInstance (sampleInstance "a"), Call.DeregisterInstance (sampleInstance "a")]
    rfl⟩

end Eurek8s
